import Mathlib

/-!
Shallow embedding of the book-recommender aggregation core:
the recommendation aggregator `fetchRecommendationsForBooks` (src/api.js)
and the graph construction `buildGraphData` (src/buildGraphData.js).

External HTTP search is modelled by an `Oracle` mapping each issued query
(subject search by slug, or title search) to `none` (the request threw and
was caught) or `some docs` (the parsed `data.docs` array, defaulted to `[]`).
JavaScript objects used as string-keyed maps are modelled as association
lists in insertion order; JavaScript `Set`s are modelled as duplicate-free
lists in insertion order.
-/

namespace BookRecommender

/-- Global cap on collected recommendations (`const MAX = 10`). -/
def MAX : Nat := 10

/-- Apostrophe character, kept out of string literals. -/
def apos : String := String.mk [Char.ofNat 39]

/-- The generic subjects excluded from subject queries (`GENERIC_SUBJECTS`). -/
def GENERIC_SUBJECTS : List String :=
  [ "fiction", "novels", "american literature",
    "children" ++ apos ++ "s literature",
    "biography", "autobiography", "literature", "history", "poetry",
    "drama", "memoirs",
    "children" ++ apos ++ "s stories" ]

/-- A resolved root work, as produced by `fetchWorkByID`. -/
structure Book where
  id : String
  title : String
  subjects : List String
  languages : List String
deriving DecidableEq, Repr

/-- One document of a search response (`d` in `data.docs`); a missing or
empty `key`/`title` is modelled as `""` (both are falsy in the source). -/
structure Doc where
  key : String
  title : String
  subject : List String
deriving DecidableEq, Repr

/-- An external query issued by the aggregator. -/
inductive Query where
  | subject (slug : String)
  | title (t : String)
deriving DecidableEq, Repr

/-- The external search collaborator: `none` models a request that threw
(and is caught by the aggregator), `some docs` a parsed response. -/
def Oracle : Type := Query → Option (List Doc)

/-- A recommendation record: an entry of `recsMap` and also the output
shape, with `matchingBookIds` (a JS `Set`) as duplicate-free list in
insertion order. -/
structure Rec where
  id : String
  title : String
  subjects : List String
  languages : List String
  matchingBookIds : List String
deriving DecidableEq, Repr

/-- The JS `String.prototype.toLowerCase()`, modelled character-wise. -/
def toLowerStr (s : String) : String := String.mk (s.data.map Char.toLower)

/-- Lexicographic comparison of character lists: `charListLE x y` holds when
`x` precedes or equals `y`; this models `localeCompare(x, y) <= 0`. -/
def charListLE : List Char → List Char → Bool
  | [], _ => true
  | _ :: _, [] => false
  | a :: as, b :: bs =>
    if a.toNat < b.toNat then true
    else if b.toNat < a.toNat then false
    else charListLE as bs

/-- Title order used by the final sort (`a.title.localeCompare(b.title) <= 0`). -/
def localeLE (a b : String) : Prop := charListLE a.data b.data = true

/-- Add one element to a JS-`Set`-as-list (no-op when already present). -/
def addSet (s : List String) (x : String) : List String :=
  if x ∈ s then s else s ++ [x]

/-- Add every element of `ids` (in order) to the set `s`
(`rootIdsSet.forEach((rid) => set.add(rid))`). -/
def addAll (s : List String) (ids : List String) : List String :=
  ids.foldl addSet s

/-- Contents of `new Set(l)`: `l` deduplicated, keeping first occurrences. -/
def dedupList (l : List String) : List String := addAll [] l

/-- Characters kept by the slug regex `[^a-z0-9 ]` after lowercasing. -/
def isSlugChar (c : Char) : Bool := c.isLower || c.isDigit || c == ' '

/-- Replace each run of spaces by a single underscore (`replace(/\s+/g, "_")`;
after the character filter only spaces remain as whitespace). -/
def collapseSpacesAux : Bool → List Char → List Char
  | _, [] => []
  | prevSpace, c :: rest =>
    if c == ' ' then
      if prevSpace then collapseSpacesAux true rest
      else Char.ofNat 95 :: collapseSpacesAux true rest
    else c :: collapseSpacesAux false rest

/-- The `slugify` helper of `fetchRecommendationsForBooks`: lowercase,
strip characters outside `[a-z0-9 ]`, turn space runs into underscores. -/
def slugify (raw : String) : String :=
  String.mk (collapseSpacesAux false ((toLowerStr raw).data.filter isSlugChar))

/-- A root book filtered subject list: lower-cased subjects minus the
generic set (`bookFilteredSubjects`). -/
def filteredSubjectsOf (b : Book) : List String :=
  (b.subjects.map toLowerStr).filter (fun s => !GENERIC_SUBJECTS.contains s)

/-- Intersection of all root filtered subject lists, computed as in the
source: start from the first list, filter by membership in each later one. -/
def intersectionOf : List (List String) → List String
  | [] => []
  | x :: xs => xs.foldl (fun acc ys => acc.filter (fun s => ys.contains s)) x

/-- The document loop shared by `subjectSearchAndTag` (lines 80-99) and
the title fallback (lines 152-169, where `rootIds = [rootId]`): skip docs
with missing key/title, skip docs whose key is in the tagging root-id set,
stop at the cap, otherwise merge the doc into the map and add all tagging
root ids to its `matchingBookIds`. `updateExisting` is the merge with an
already-present entry: only `matchingBookIds` changes. -/
def updateExisting (rootIds : List String) (key : String) (m : List Rec) : List Rec :=
  m.map (fun e =>
    if e.id = key then { e with matchingBookIds := addAll e.matchingBookIds rootIds }
    else e)

/-- The fresh `recsMap` entry built for a newly discovered doc (lines 88-94
and 159-165): note `subjects` comes from the doc and `languages` is fixed. -/
def newEntry (rootIds : List String) (d : Doc) : Rec :=
  { id := d.key, title := d.title, subjects := d.subject.map toLowerStr,
    languages := ["eng"], matchingBookIds := addAll [] rootIds }

def tagDocs (rootIds : List String) : List Rec → List Doc → List Rec
  | m, [] => m
  | m, d :: ds =>
    if d.key = "" ∨ d.title = "" then tagDocs rootIds m ds
    else if d.key ∈ rootIds then tagDocs rootIds m ds
    else if MAX ≤ m.length then m
    else
      match m.find? (fun e => e.id == d.key) with
      | some _ => tagDocs rootIds (updateExisting rootIds d.key m) ds
      | none => tagDocs rootIds (m ++ [newEntry rootIds d]) ds

/-- The helper `subjectSearchAndTag(rootIdsSet, subj)`: no-op at the cap or
on an empty slug; a failing request is swallowed; otherwise tag every
returned doc with `rootIds`. -/
def subjectSearchAndTag (o : Oracle) (rootIds : List String) (subj : String)
    (m : List Rec) : List Rec :=
  if MAX ≤ m.length then m
  else
    let slug := slugify subj
    if slug = "" then m
    else
      match o (Query.subject slug) with
      | none => m
      | some docs => tagDocs rootIds m docs

/-- A `for (subj of subjects)` loop calling `subjectSearchAndTag`, breaking
at the cap (used by the intersection pass and by each per-root pass). -/
def runSubjList (o : Oracle) (rootIds : List String) :
    List String → List Rec → List Rec
  | [], m => m
  | subj :: rest, m =>
    if MAX ≤ m.length then m
    else runSubjList o rootIds rest (subjectSearchAndTag o rootIds subj m)

/-- Pass 3 outer loop: for each root (with its filtered subjects), break at
the cap, else run that root subject loop tagging with that single root id. -/
def runPerRoot (o : Oracle) :
    List (String × List String) → List Rec → List Rec
  | [], m => m
  | (rootId, filtered) :: rest, m =>
    if MAX ≤ m.length then m
    else runPerRoot o rest (runSubjList o [rootId] filtered m)

/-- State of `recsMap` after pass 2 (the subject-intersection pass). -/
def afterIntersection (o : Oracle) (queryBooks : List Book) : List Rec :=
  let bookFilteredSubjects := queryBooks.map filteredSubjectsOf
  let intersection := intersectionOf bookFilteredSubjects
  if 0 < intersection.length then
    runSubjList o (dedupList (queryBooks.map (fun b => b.id))) intersection []
  else []

/-- State of `recsMap` after pass 3 (the per-root subject passes). -/
def afterPerRoot (o : Oracle) (queryBooks : List Book) : List Rec :=
  runPerRoot o (queryBooks.map (fun b => (b.id, filteredSubjectsOf b)))
    (afterIntersection o queryBooks)

/-- One iteration of the title-fallback loop body for root `b` (lines
140-172): skip when some collected rec already tags `b.id`; otherwise issue
the title search (recorded by the `Bool`) and merge its docs tagged with
`[b.id]`; a failing request is swallowed. -/
def fallbackStep (o : Oracle) (b : Book) (m : List Rec) : List Rec × Bool :=
  if m.any (fun e => decide (b.id ∈ e.matchingBookIds)) then (m, false)
  else
    match o (Query.title b.title) with
    | none => (m, true)
    | some docs => (tagDocs [b.id] m docs, true)

/-- Pass 4: the title-fallback loop over all roots, breaking at the cap;
also returns the ids of the roots for which a title search was issued. -/
def runFallback (o : Oracle) : List Book → List Rec → List Rec × List String
  | [], m => (m, [])
  | b :: rest, m =>
    if MAX ≤ m.length then (m, [])
    else
      let p := fallbackStep o b m
      let q := runFallback o rest p.1
      (q.1, (if p.2 then [b.id] else []) ++ q.2)

/-- Final state of `recsMap` (and the issued-fallback root ids) after all
four passes. -/
def fallbackResult (o : Oracle) (queryBooks : List Book) :
    List Rec × List String :=
  runFallback o queryBooks (afterPerRoot o queryBooks)

/-- Comparison underlying the final `allRecs.sort`: `a` may precede `b` iff
the comparator `(a, b) => bLen - aLen || localeCompare(aTitle, bTitle)` is
nonpositive there. -/
def recLE (a b : Rec) : Prop :=
  b.matchingBookIds.length < a.matchingBookIds.length ∨
  (a.matchingBookIds.length = b.matchingBookIds.length ∧ localeLE a.title b.title)

instance : DecidableRel recLE := fun a b => by unfold recLE localeLE; infer_instance

/-- The final sort of step 5: `Array.prototype.sort` with a consistent
comparator, modelled as a sort by the induced total preorder. -/
def sortRecs (l : List Rec) : List Rec := l.insertionSort recLE

/-- The aggregator `fetchRecommendationsForBooks(queryBooks)` on an actual
array argument: guard the empty case, run the four passes, copy the map
values to an array, sort, and truncate to `MAX`. -/
def fetchRecommendationsForBooks (o : Oracle) (queryBooks : List Book) :
    List Rec :=
  if queryBooks.length = 0 then []
  else
    let allRecs := (fallbackResult o queryBooks).1.map (fun e =>
      { id := e.id, title := e.title, subjects := e.subjects,
        languages := e.languages, matchingBookIds := e.matchingBookIds : Rec })
    (sortRecs allRecs).take MAX

/-- A JavaScript argument to `fetchRecommendationsForBooks`: either not an
array at all, or an array of books. -/
inductive JsInput where
  | notArray
  | arr (queryBooks : List Book)
deriving DecidableEq, Repr

/-- The aggregator including the dynamic guard of line 49
(`!Array.isArray(queryBooks)` returns `[]`). -/
def fetchRecommendationsForBooksJS (o : Oracle) : JsInput → List Rec
  | .notArray => []
  | .arr queryBooks => fetchRecommendationsForBooks o queryBooks

/-- Per-root cap used by `buildGraphData` (`MAX_RECS_PER_ROOT = 10`). -/
def MAX_RECS_PER_ROOT : Nat := 10

/-- An entry of `allRecsMap` in `buildGraphData`. -/
structure GEntry where
  id : String
  title : String
  subjects : List String
  matchingBookIds : List String
  isIntersection : Bool
deriving DecidableEq, Repr

/-- A node of the output graph; root nodes carry no `matchingBookIds` or
`isIntersection` field, modelled by `none`. -/
structure GNode where
  id : String
  label : String
  type : String
  subjects : List String
  matchingBookIds : Option (List String)
  isIntersection : Option Bool
deriving DecidableEq, Repr

/-- A link of the output graph. -/
structure GLink where
  source : String
  target : String
  value : Nat
deriving DecidableEq, Repr

/-- Step A merge of one per-root rec into `allRecsMap` (lines 34-48): new
ids are appended with `isIntersection := false`; an existing entry only has
the new root ids unioned in. -/
def stepAInsert (m : List GEntry) (r : Rec) : List GEntry :=
  match m.find? (fun e => e.id == r.id) with
  | none =>
      m ++ [{ id := r.id, title := r.title,
              subjects := r.subjects.map toLowerStr,
              matchingBookIds := dedupList r.matchingBookIds,
              isIntersection := false }]
  | some _ =>
      m.map (fun e =>
        if e.id = r.id then
          { e with matchingBookIds := addAll e.matchingBookIds r.matchingBookIds }
        else e)

/-- Step B merge of one intersection-call rec into `allRecsMap` (lines
56-73): new ids are appended flagged `isIntersection := true` and tagged
with all root ids; an existing entry has all root ids unioned in and its
flag set to `true`. -/
def stepBInsert (allRootIDs : List String) (m : List GEntry) (r : Rec) :
    List GEntry :=
  match m.find? (fun e => e.id == r.id) with
  | none =>
      m ++ [{ id := r.id, title := r.title,
              subjects := r.subjects.map toLowerStr,
              matchingBookIds := dedupList allRootIDs,
              isIntersection := true }]
  | some _ =>
      m.map (fun e =>
        if e.id = r.id then
          { e with matchingBookIds := addAll e.matchingBookIds allRootIDs,
                   isIntersection := true }
        else e)

/-- `allRecsMap` after Step A: per-root calls of the aggregator, each
truncated to `MAX_RECS_PER_ROOT`, merged in order. -/
def allRecsMapA (o : Oracle) (queryBooks : List Book) : List GEntry :=
  queryBooks.foldl (fun m rootBook =>
    ((fetchRecommendationsForBooks o [rootBook]).take MAX_RECS_PER_ROOT).foldl
      stepAInsert m) []

/-- `allRecsMap` after Step B: when there are at least two roots, the
all-roots aggregator call (truncated to `MAX_RECS_PER_ROOT`) is merged on
top of Step A with `stepBInsert`. -/
def allRecsMapB (o : Oracle) (queryBooks : List Book) : List GEntry :=
  if 1 < queryBooks.length then
    ((fetchRecommendationsForBooks o queryBooks).take MAX_RECS_PER_ROOT).foldl
      (stepBInsert (queryBooks.map (fun b => b.id))) (allRecsMapA o queryBooks)
  else allRecsMapA o queryBooks

/-- Comparison underlying step 3 of `buildGraphData`
(`(a, b) => b.matchingBookIds.size - a.matchingBookIds.size`). -/
def gentryLE (a b : GEntry) : Prop :=
  b.matchingBookIds.length ≤ a.matchingBookIds.length

instance : DecidableRel gentryLE := fun a b => by unfold gentryLE; infer_instance

/-- `allRecsArray`: the merged map values sorted by matching-root count,
descending. -/
def allRecsArray (o : Oracle) (queryBooks : List Book) : List GEntry :=
  (allRecsMapB o queryBooks).insertionSort gentryLE

/-- The root node built from a root book (lines 16-21). -/
def rootNode (b : Book) : GNode :=
  { id := b.id, label := b.title, type := "root",
    subjects := b.subjects.map toLowerStr,
    matchingBookIds := none, isIntersection := none }

/-- The rec node built from a merged entry (lines 85-92). -/
def recNode (e : GEntry) : GNode :=
  { id := e.id, label := e.title, type := "rec", subjects := e.subjects,
    matchingBookIds := some e.matchingBookIds,
    isIntersection := some e.isIntersection }

/-- Push a node unless its id was already seen; the pair is
(`seen` in insertion order, `nodes`). -/
def addNode (p : List String × List GNode) (n : GNode) :
    List String × List GNode :=
  if n.id ∈ p.1 then p else (p.1 ++ [n.id], p.2 ++ [n])

/-- The `nodes` array of `buildGraphData`: one pass over the roots, then
one pass over `allRecsArray`, sharing the `seen` id set. -/
def buildNodes (o : Oracle) (queryBooks : List Book) : List GNode :=
  ((allRecsArray o queryBooks).foldl (fun p e => addNode p (recNode e))
    (queryBooks.foldl (fun p b => addNode p (rootNode b)) ([], []))).2

/-- The `links` array of `buildGraphData` (lines 99-107): for each merged
entry, one link per tagging root id, weighted 2 for intersection entries
and 1 otherwise. -/
def buildLinks (o : Oracle) (queryBooks : List Book) : List GLink :=
  (allRecsArray o queryBooks).flatMap (fun e =>
    e.matchingBookIds.map (fun rootId =>
      { source := rootId, target := e.id,
        value := if e.isIntersection then 2 else 1 }))

/-- The `{nodes, links}` result of `buildGraphData`. -/
structure GraphData where
  nodes : List GNode
  links : List GLink
deriving DecidableEq, Repr

/-- The graph builder `buildGraphData(queryBooks)`, with its aggregator
calls resolved against the oracle `o`. -/
def buildGraphData (o : Oracle) (queryBooks : List Book) : GraphData :=
  { nodes := buildNodes o queryBooks, links := buildLinks o queryBooks }

/-- The tagging root-id sets that ever reach `tagDocs` during one
aggregation run for `books`. -/
def UsedRootIds (books : List Book) (rootIds : List String) : Prop :=
  rootIds = dedupList (books.map (fun b => b.id)) ∨ ∃ b ∈ books, rootIds = [b.id]

/-- Two concrete roots with one non-generic subject each, used as a
counterexample scenario: searching the first root subject returns the
second root itself. -/
def cb1 : Book := { id := "r1", title := "A", subjects := ["s one"], languages := [] }

/-- Second concrete root of the counterexample scenario. -/
def cb2 : Book := { id := "r2", title := "B", subjects := ["s two"], languages := [] }

/-- Concrete oracle: the subject search for the first root subject returns
a doc whose key is the second root id; all other queries return nothing. -/
def cOracle : Oracle := fun q =>
  if q = Query.subject "s_one" then some [{ key := "r2", title := "T2", subject := [] }]
  else some []

/-- The recommendation produced in the counterexample scenario. -/
def cRec : Rec :=
  { id := "r2", title := "T2", subjects := [], languages := ["eng"],
    matchingBookIds := ["r1"] }

/-- A second concrete oracle whose single subject query returns two new
works, so the aggregator output has two entries. -/
def wOracle : Oracle := fun q =>
  if q = Query.subject "s_one" then
    some [{ key := "w1", title := "Beta", subject := [] },
          { key := "w2", title := "Alpha", subject := [] }]
  else some []

/-- A concrete graph-map entry sharing its id with `cRec`. -/
def cGEntry : GEntry :=
  { id := "r2", title := "T2", subjects := [], matchingBookIds := ["r1"],
    isIntersection := false }

/-- The merged graph entry of the counterexample run, flagged by Step B. -/
def cGEntryB : GEntry :=
  { id := "r2", title := "T2", subjects := [], matchingBookIds := ["r1", "r2"],
    isIntersection := true }

/-- The oracle `o` with every failure replaced by an empty success. -/
def patchOracle (o : Oracle) : Oracle := fun q => some ((o q).getD [])

/-- Root id `x` already tags some collected recommendation (the
`rootHasRec` check of line 141). -/
def tagged (m : List Rec) (x : String) : Prop :=
  ∃ e ∈ m, x ∈ e.matchingBookIds

/-! Order facts for the sort comparators. -/

theorem charListLE_total : ∀ x y : List Char,
    charListLE x y = true ∨ charListLE y x = true
  | [], _ => Or.inl rfl
  | _ :: _, [] => Or.inr rfl
  | a :: as, b :: bs => by
    by_cases h₁ : a.toNat < b.toNat
    · exact Or.inl (by simp [charListLE, h₁])
    · by_cases h₂ : b.toNat < a.toNat
      · exact Or.inr (by simp [charListLE, h₂])
      · rcases charListLE_total as bs with h | h
        · exact Or.inl (by simp [charListLE, h₁, h₂, h])
        · exact Or.inr (by simp [charListLE, h₁, h₂, h])

theorem charListLE_trans : ∀ x y z : List Char,
    charListLE x y = true → charListLE y z = true → charListLE x z = true
  | [], _, _ => fun _ _ => rfl
  | a :: as, [], _ => by simp [charListLE]
  | _ :: _, _ :: _, [] => by simp [charListLE]
  | a :: as, b :: bs, c :: cs => by
    simp only [charListLE]
    intro h₁ h₂
    rcases Nat.lt_trichotomy a.toNat b.toNat with hab | hab | hab
    · rcases Nat.lt_trichotomy b.toNat c.toNat with hbc | hbc | hbc
      · rw [if_pos (by omega)]
      · rw [if_pos (by omega)]
      · rw [if_neg (by omega), if_pos (by omega)] at h₂
        exact absurd h₂ (by simp)
    · rw [if_neg (by omega), if_neg (by omega)] at h₁
      rcases Nat.lt_trichotomy b.toNat c.toNat with hbc | hbc | hbc
      · rw [if_pos (by omega)]
      · rw [if_neg (by omega), if_neg (by omega)] at h₂
        rw [if_neg (by omega), if_neg (by omega)]
        exact charListLE_trans as bs cs h₁ h₂
      · rw [if_neg (by omega), if_pos (by omega)] at h₂
        exact absurd h₂ (by simp)
    · rw [if_neg (by omega), if_pos (by omega)] at h₁
      exact absurd h₁ (by simp)

instance : IsTotal Rec recLE := by
  constructor
  intro a b
  rcases Nat.lt_trichotomy a.matchingBookIds.length b.matchingBookIds.length with h | h | h
  · exact Or.inr (Or.inl h)
  · rcases charListLE_total a.title.data b.title.data with ht | ht
    · exact Or.inl (Or.inr ⟨h, ht⟩)
    · exact Or.inr (Or.inr ⟨h.symm, ht⟩)
  · exact Or.inl (Or.inl h)

instance : IsTrans Rec recLE := by
  constructor
  rintro a b c (h₁ | ⟨h₁, t₁⟩) (h₂ | ⟨h₂, t₂⟩)
  · exact Or.inl (h₂.trans h₁)
  · exact Or.inl (h₂ ▸ h₁)
  · exact Or.inl (h₁ ▸ h₂)
  · exact Or.inr ⟨h₁.trans h₂, charListLE_trans _ _ _ t₁ t₂⟩

instance : IsTotal GEntry gentryLE := by
  constructor
  intro a b
  exact (Nat.le_total b.matchingBookIds.length a.matchingBookIds.length)

instance : IsTrans GEntry gentryLE := by
  constructor
  intro a b c h₁ h₂
  exact h₂.trans h₁

theorem charListLE_refl : ∀ x : List Char, charListLE x x = true
  | [] => rfl
  | a :: as => by simp [charListLE, charListLE_refl as]

/-! Basic lemmas about the JS-`Set`-as-list operations. -/

theorem mem_addSet {s : List String} {x y : String} :
    y ∈ addSet s x ↔ y ∈ s ∨ y = x := by
  unfold addSet
  split
  · rename_i h
    constructor
    · exact Or.inl
    · rintro (h₁ | rfl)
      · exact h₁
      · exact h
  · simp

theorem addSet_nodup {s : List String} {x : String} (h : s.Nodup) :
    (addSet s x).Nodup := by
  unfold addSet
  split
  · exact h
  · rename_i hx
    rw [List.nodup_append]
    exact ⟨h, List.nodup_singleton x, by simpa using hx⟩

theorem addSet_subset {s : List String} {x : String} : s ⊆ addSet s x := by
  intro y hy
  exact mem_addSet.2 (Or.inl hy)

theorem addAll_cons {s : List String} {i : String} {is : List String} :
    addAll s (i :: is) = addAll (addSet s i) is := rfl

theorem mem_addAll {ids : List String} : ∀ {s : List String} {x : String},
    x ∈ addAll s ids ↔ x ∈ s ∨ x ∈ ids := by
  induction ids with
  | nil => simp [addAll]
  | cons i is ih =>
    intro s x
    rw [addAll_cons, ih, mem_addSet]
    simp only [List.mem_cons]
    tauto

theorem addAll_nodup {ids : List String} : ∀ {s : List String},
    s.Nodup → (addAll s ids).Nodup := by
  induction ids with
  | nil => exact fun h => h
  | cons i is ih => exact fun h => ih (addSet_nodup h)

theorem addAll_subset {s ids : List String} : s ⊆ addAll s ids :=
  fun _ hy => mem_addAll.2 (Or.inl hy)

theorem subset_addAll {s ids : List String} : ids ⊆ addAll s ids :=
  fun _ hy => mem_addAll.2 (Or.inr hy)

theorem mem_dedupList {l : List String} {x : String} :
    x ∈ dedupList l ↔ x ∈ l := by
  unfold dedupList
  rw [mem_addAll]
  simp

theorem dedupList_nodup {l : List String} : (dedupList l).Nodup :=
  addAll_nodup List.nodup_nil

/-! Generic preservation and monotonicity through the doc-merge loop. -/

theorem tagDocs_pres (rootIds : List String) (P : List Rec → Prop)
    (hupd : ∀ (m : List Rec) (d : Doc), ¬ d.key = "" → ¬ d.title = "" →
      d.key ∉ rootIds → m.length < MAX → P m →
      P (updateExisting rootIds d.key m))
    (happ : ∀ (m : List Rec) (d : Doc), ¬ d.key = "" → ¬ d.title = "" →
      d.key ∉ rootIds → m.length < MAX →
      m.find? (fun e => e.id == d.key) = none → P m →
      P (m ++ [newEntry rootIds d])) :
    ∀ (ds : List Doc) (m : List Rec), P m → P (tagDocs rootIds m ds) := by
  intro ds
  induction ds with
  | nil => exact fun m h => h
  | cons d ds ih =>
    intro m h
    rw [tagDocs]
    split
    · exact ih m h
    · split
      · exact ih m h
      · split
        · exact h
        · rename_i hkt hroot hlen
          push_neg at hkt
          split
          · exact ih _ (hupd m d hkt.1 hkt.2 hroot (by omega) h)
          · rename_i hfind
            exact ih _ (happ m d hkt.1 hkt.2 hroot (by omega) hfind h)

theorem length_updateExisting (rootIds : List String) (key : String)
    (m : List Rec) : (updateExisting rootIds key m).length = m.length := by
  simp [updateExisting]

theorem length_le_tagDocs (rootIds : List String) :
    ∀ (ds : List Doc) (m : List Rec), m.length ≤ (tagDocs rootIds m ds).length := by
  intro ds
  induction ds with
  | nil => exact fun m => Nat.le_refl _
  | cons d ds ih =>
    intro m
    rw [tagDocs]
    split
    · exact ih m
    · split
      · exact ih m
      · split
        · exact Nat.le_refl _
        · split
          · calc m.length = (updateExisting rootIds d.key m).length :=
                  (length_updateExisting rootIds d.key m).symm
              _ ≤ _ := ih _
          · calc m.length ≤ (m ++ [newEntry rootIds d]).length := by simp
              _ ≤ _ := ih _

theorem subjectSearchAndTag_pres (o : Oracle) (rootIds : List String)
    (P : List Rec → Prop)
    (htag : ∀ (ds : List Doc) (m : List Rec), P m → P (tagDocs rootIds m ds)) :
    ∀ (subj : String) (m : List Rec), P m → P (subjectSearchAndTag o rootIds subj m) := by
  intro subj m h
  unfold subjectSearchAndTag
  dsimp only
  split
  · exact h
  · split
    · exact h
    · split
      · exact h
      · exact htag _ m h

theorem runSubjList_pres (o : Oracle) (rootIds : List String) (P : List Rec → Prop)
    (hstep : ∀ (subj : String) (m : List Rec), P m →
      P (subjectSearchAndTag o rootIds subj m)) :
    ∀ (subjs : List String) (m : List Rec), P m → P (runSubjList o rootIds subjs m) := by
  intro subjs
  induction subjs with
  | nil => exact fun m h => h
  | cons subj rest ih =>
    intro m h
    rw [runSubjList]
    split
    · exact h
    · exact ih _ (hstep subj m h)

theorem runPerRoot_pres (o : Oracle) (P : List Rec → Prop) :
    ∀ (pairs : List (String × List String)),
      (∀ rid subjs, (rid, subjs) ∈ pairs →
        ∀ (ds : List Doc) (m : List Rec), P m → P (tagDocs [rid] m ds)) →
      ∀ (m : List Rec), P m → P (runPerRoot o pairs m) := by
  intro pairs
  induction pairs with
  | nil => exact fun _ m h => h
  | cons p rest ih =>
    intro hall m h
    rw [runPerRoot]
    split
    · exact h
    · exact ih (fun rid subjs hmem => hall rid subjs (List.mem_cons_of_mem p hmem)) _
        (runSubjList_pres o [p.1] P
          (subjectSearchAndTag_pres o [p.1] P (hall p.1 p.2 (List.mem_cons_self p rest)))
          p.2 m h)

theorem fallbackStep_pres (o : Oracle) (b : Book) (P : List Rec → Prop)
    (htag : ∀ (ds : List Doc) (m : List Rec), P m → P (tagDocs [b.id] m ds)) :
    ∀ (m : List Rec), P m → P (fallbackStep o b m).1 := by
  intro m h
  unfold fallbackStep
  split
  · exact h
  · split
    · exact h
    · exact htag _ m h

theorem runFallback_pres (o : Oracle) (P : List Rec → Prop) :
    ∀ (bs : List Book),
      (∀ b ∈ bs, ∀ (ds : List Doc) (m : List Rec), P m → P (tagDocs [b.id] m ds)) →
      ∀ (m : List Rec), P m → P (runFallback o bs m).1 := by
  intro bs
  induction bs with
  | nil => exact fun _ m h => h
  | cons b rest ih =>
    intro hall m h
    rw [runFallback]
    split
    · exact h
    · exact ih (fun b hb => hall b (List.mem_cons_of_mem _ hb)) _
        (fallbackStep_pres o b P (hall b (List.mem_cons_self b rest)) m h)

theorem fallbackResult_pres (o : Oracle) (books : List Book) (P : List Rec → Prop)
    (hemp : P [])
    (htag : ∀ rootIds, UsedRootIds books rootIds →
      ∀ (ds : List Doc) (m : List Rec), P m → P (tagDocs rootIds m ds)) :
    P (fallbackResult o books).1 := by
  have h₂ : P (afterIntersection o books) := by
    unfold afterIntersection
    dsimp only
    split
    · exact runSubjList_pres o _ P
        (subjectSearchAndTag_pres o _ P (htag _ (Or.inl rfl))) _ [] hemp
    · exact hemp
  have h₃ : P (afterPerRoot o books) := by
    unfold afterPerRoot
    refine runPerRoot_pres o P _ ?_ _ h₂
    intro rid subjs hmem
    rcases List.mem_map.1 hmem with ⟨b, hb, hpair⟩
    have hrid : rid = b.id := by
      have := congrArg Prod.fst hpair
      simpa using this.symm
    subst hrid
    exact htag [b.id] (Or.inr ⟨b, hb, rfl⟩)
  exact runFallback_pres o P books
    (fun b hb => htag [b.id] (Or.inr ⟨b, hb, rfl⟩)) _ h₃

/-! Length monotonicity through the passes. -/

theorem length_le_subjectSearchAndTag (o : Oracle) (rootIds : List String)
    (subj : String) (m : List Rec) :
    m.length ≤ (subjectSearchAndTag o rootIds subj m).length := by
  unfold subjectSearchAndTag
  dsimp only
  split
  · exact Nat.le_refl _
  · split
    · exact Nat.le_refl _
    · split
      · exact Nat.le_refl _
      · exact length_le_tagDocs _ _ _

theorem length_le_runSubjList (o : Oracle) (rootIds : List String) :
    ∀ (subjs : List String) (m : List Rec),
      m.length ≤ (runSubjList o rootIds subjs m).length := by
  intro subjs
  induction subjs with
  | nil => exact fun m => Nat.le_refl _
  | cons subj rest ih =>
    intro m
    rw [runSubjList]
    split
    · exact Nat.le_refl _
    · exact (length_le_subjectSearchAndTag o rootIds subj m).trans (ih _)

theorem length_le_runPerRoot (o : Oracle) :
    ∀ (pairs : List (String × List String)) (m : List Rec),
      m.length ≤ (runPerRoot o pairs m).length := by
  intro pairs
  induction pairs with
  | nil => exact fun m => Nat.le_refl _
  | cons p rest ih =>
    intro m
    rw [runPerRoot]
    split
    · exact Nat.le_refl _
    · exact (length_le_runSubjList o [p.1] p.2 m).trans (ih _)

theorem length_le_fallbackStep (o : Oracle) (b : Book) (m : List Rec) :
    m.length ≤ (fallbackStep o b m).1.length := by
  unfold fallbackStep
  split
  · exact Nat.le_refl _
  · split
    · exact Nat.le_refl _
    · exact length_le_tagDocs _ _ _

theorem length_le_runFallback (o : Oracle) :
    ∀ (bs : List Book) (m : List Rec),
      m.length ≤ (runFallback o bs m).1.length := by
  intro bs
  induction bs with
  | nil => exact fun m => Nat.le_refl _
  | cons b rest ih =>
    intro m
    rw [runFallback]
    split
    · exact Nat.le_refl _
    · exact (length_le_fallbackStep o b m).trans (ih _)

/-! Field computations for the merge helpers. -/

@[simp] theorem newEntry_id (rootIds : List String) (d : Doc) :
    (newEntry rootIds d).id = d.key := rfl

@[simp] theorem newEntry_matching (rootIds : List String) (d : Doc) :
    (newEntry rootIds d).matchingBookIds = addAll [] rootIds := rfl

theorem ids_updateExisting (rootIds : List String) (key : String) (m : List Rec) :
    (updateExisting rootIds key m).map (fun e => e.id) = m.map (fun e => e.id) := by
  unfold updateExisting
  rw [List.map_map]
  refine List.map_congr_left ?_
  intro e _
  by_cases h : e.id = key <;> simp [h]

theorem mem_updateExisting {rootIds : List String} {key : String} {m : List Rec}
    {x : Rec} (hx : x ∈ updateExisting rootIds key m) :
    ∃ e ∈ m, x = e ∨ (e.id = key ∧
      x = { e with matchingBookIds := addAll e.matchingBookIds rootIds }) := by
  rcases List.mem_map.1 hx with ⟨e, he, hxe⟩
  refine ⟨e, he, ?_⟩
  by_cases h : e.id = key
  · rw [if_pos h] at hxe
    exact Or.inr ⟨h, hxe.symm⟩
  · rw [if_neg h] at hxe
    exact Or.inl hxe.symm

theorem find?_none_id {m : List Rec} {key : String}
    (h : m.find? (fun e => e.id == key) = none) : ∀ e ∈ m, e.id ≠ key := by
  intro e he
  have := List.find?_eq_none.1 h e he
  simpa using this

/-! The recsMap invariants, established through a whole aggregation run. -/

theorem fallbackResult_ids_nodup (o : Oracle) (books : List Book) :
    ((fallbackResult o books).1.map (fun e => e.id)).Nodup := by
  refine fallbackResult_pres o books (fun m => (m.map (fun e => e.id)).Nodup)
    List.nodup_nil ?_
  intro rootIds _ ds m
  refine tagDocs_pres rootIds (fun m => (m.map (fun e => e.id)).Nodup) ?_ ?_ ds m
  · intro m d _ _ _ _ h
    rw [ids_updateExisting]
    exact h
  · intro m d _ _ _ _ hfind h
    rw [List.map_append]
    rw [List.nodup_append]
    refine ⟨h, by simp, ?_⟩
    intro x hx hx2
    simp only [List.map_cons, List.map_nil, List.mem_singleton, newEntry_id] at hx2
    subst hx2
    rcases List.mem_map.1 hx with ⟨e, he, hid⟩
    exact find?_none_id hfind e he hid

theorem fallbackResult_matching_nodup (o : Oracle) (books : List Book) :
    ∀ e ∈ (fallbackResult o books).1, e.matchingBookIds.Nodup := by
  refine fallbackResult_pres o books (fun m => ∀ e ∈ m, e.matchingBookIds.Nodup)
    (fun e he => absurd he (List.not_mem_nil e)) ?_
  intro rootIds _ ds m
  refine tagDocs_pres rootIds (fun m => ∀ e ∈ m, e.matchingBookIds.Nodup) ?_ ?_ ds m
  · intro m d _ _ _ _ h x hx
    rcases mem_updateExisting hx with ⟨e₀, he₀, h₁ | ⟨_, h₁⟩⟩
    · exact h₁ ▸ h e₀ he₀
    · rw [h₁]
      exact addAll_nodup (h e₀ he₀)
  · intro m d _ _ _ _ _ h x hx
    rcases List.mem_append.1 hx with hx | hx
    · exact h x hx
    · simp only [List.mem_singleton] at hx
      subst hx
      simpa using addAll_nodup List.nodup_nil

theorem fallbackResult_no_self_tag (o : Oracle) (books : List Book) :
    ∀ e ∈ (fallbackResult o books).1, e.id ∉ e.matchingBookIds := by
  refine fallbackResult_pres o books (fun m => ∀ e ∈ m, e.id ∉ e.matchingBookIds)
    (fun e he => absurd he (List.not_mem_nil e)) ?_
  intro rootIds _ ds m
  refine tagDocs_pres rootIds (fun m => ∀ e ∈ m, e.id ∉ e.matchingBookIds) ?_ ?_ ds m
  · intro m d _ _ hkey _ h x hx
    rcases mem_updateExisting hx with ⟨e₀, he₀, h₁ | ⟨hid, h₁⟩⟩
    · exact h₁ ▸ h e₀ he₀
    · rw [h₁]
      intro hmem
      rcases mem_addAll.1 hmem with hmem | hmem
      · exact h e₀ he₀ hmem
      · exact hkey (hid ▸ hmem)
  · intro m d _ _ hkey _ _ h x hx
    rcases List.mem_append.1 hx with hx | hx
    · exact h x hx
    · simp only [List.mem_singleton] at hx
      subst hx
      intro hmem
      rw [newEntry_id, newEntry_matching] at hmem
      rcases mem_addAll.1 hmem with hmem | hmem
      · simp at hmem
      · exact hkey hmem

theorem fallbackResult_no_root_id (o : Oracle) (books : List Book) (x : String)
    (hx : ∀ rootIds, UsedRootIds books rootIds → x ∈ rootIds) :
    ∀ e ∈ (fallbackResult o books).1, e.id ≠ x := by
  refine fallbackResult_pres o books (fun m => ∀ e ∈ m, e.id ≠ x)
    (fun e he => absurd he (List.not_mem_nil e)) ?_
  intro rootIds hused ds m
  refine tagDocs_pres rootIds (fun m => ∀ e ∈ m, e.id ≠ x) ?_ ?_ ds m
  · intro m d _ _ _ _ h e he
    rcases mem_updateExisting he with ⟨e₀, he₀, h₁ | ⟨_, h₁⟩⟩
    · exact h₁ ▸ h e₀ he₀
    · rw [h₁]
      exact h e₀ he₀
  · intro m d _ _ hkey _ _ h e he
    rcases List.mem_append.1 he with he | he
    · exact h e he
    · simp only [List.mem_singleton] at he
      subst he
      rw [newEntry_id]
      intro hcontra
      exact hkey (hcontra ▸ hx rootIds hused)

/-! From the final map to the returned sequence. -/

theorem recCopy_id : (fun e : Rec =>
    ({ id := e.id, title := e.title, subjects := e.subjects,
       languages := e.languages, matchingBookIds := e.matchingBookIds } : Rec)) = id := by
  funext e
  rfl

theorem fetch_eq (o : Oracle) (books : List Book) (h : ¬ books.length = 0) :
    fetchRecommendationsForBooks o books =
      (sortRecs (fallbackResult o books).1).take MAX := by
  unfold fetchRecommendationsForBooks
  rw [if_neg h]
  dsimp only
  rw [recCopy_id, List.map_id]

theorem mem_fetch {o : Oracle} {books : List Book} {r : Rec}
    (hr : r ∈ fetchRecommendationsForBooks o books) :
    r ∈ (fallbackResult o books).1 := by
  by_cases h : books.length = 0
  · unfold fetchRecommendationsForBooks at hr
    rw [if_pos h] at hr
    cases hr
  · rw [fetch_eq o books h] at hr
    have h2 := List.take_subset MAX _ hr
    unfold sortRecs at h2
    exact (List.mem_insertionSort recLE).1 h2

/-- C2 (amended): each discovery pass filters results only against the
root ids it is tagging with, so no recommendation ever carries its own id
in `matchingBookIds`, and for single-root aggregation no recommendation id
equals the root id; with several roots, a per-root pass may still return
another root as a recommendation. -/
theorem fetch_no_root_self_recommendation (o : Oracle) (books : List Book)
    (r : Rec) (hr : r ∈ fetchRecommendationsForBooks o books) :
    r.id ∉ r.matchingBookIds ∧ ∀ b : Book, books = [b] → r.id ≠ b.id := by
  constructor
  · exact fallbackResult_no_self_tag o books r (mem_fetch hr)
  · rintro b rfl
    refine fallbackResult_no_root_id o [b] b.id ?_ r (mem_fetch hr)
    intro rootIds hused
    rcases hused with h | ⟨b₀, hb₀, h⟩
    · rw [h]
      exact mem_dedupList.2 (by simp)
    · simp only [List.mem_singleton] at hb₀
      subst hb₀
      rw [h]
      simp

/-- C2 counterexample: with two roots, the per-root subject pass for the
first root returns the second root itself, which is added as a
recommendation, so the claimed invariant (no recommendation id equals any
root id) fails on the code. -/
theorem fetch_root_id_collision_counterexample :
    ¬ (∀ r ∈ fetchRecommendationsForBooks cOracle [cb1, cb2],
        ∀ b ∈ [cb1, cb2], r.id ≠ b.id) := by
  decide

/-- Witness instantiating `fetch_no_root_self_recommendation` at a
concrete run. -/
theorem fetch_no_root_self_recommendation_witness :
    cRec ∈ fetchRecommendationsForBooks cOracle [cb1, cb2] ∧
      cRec.id ∉ cRec.matchingBookIds ∧
      ∀ b : Book, [cb1, cb2] = [b] → cRec.id ≠ b.id :=
  ⟨by decide, fetch_no_root_self_recommendation cOracle [cb1, cb2] cRec (by decide)⟩

/-- C3: the aggregator output length never exceeds the global cap of 10,
which the final truncation applies across all strategies combined. -/
theorem fetch_length_le_global_cap (o : Oracle) (books : List Book) :
    (fetchRecommendationsForBooks o books).length ≤ 10 := by
  by_cases h : books.length = 0
  · unfold fetchRecommendationsForBooks
    rw [if_pos h]
    simp
  · rw [fetch_eq o books h]
    exact List.length_take_le MAX (sortRecs (fallbackResult o books).1)

/-- C4: in the aggregator output, an entry matching strictly more roots
precedes one matching fewer; among entries matching equally many roots,
one whose title is strictly smaller (in the modelled locale order)
precedes the other. -/
theorem fetch_sorted_by_matching_then_title (o : Oracle) (books : List Book)
    (i j : Nat) (hi : i < (fetchRecommendationsForBooks o books).length)
    (hj : j < (fetchRecommendationsForBooks o books).length) :
    (((fetchRecommendationsForBooks o books).get ⟨j, hj⟩).matchingBookIds.length <
       ((fetchRecommendationsForBooks o books).get ⟨i, hi⟩).matchingBookIds.length →
      i < j) ∧
    (((fetchRecommendationsForBooks o books).get ⟨i, hi⟩).matchingBookIds.length =
       ((fetchRecommendationsForBooks o books).get ⟨j, hj⟩).matchingBookIds.length →
     ¬ localeLE ((fetchRecommendationsForBooks o books).get ⟨j, hj⟩).title
         ((fetchRecommendationsForBooks o books).get ⟨i, hi⟩).title →
      i < j) := by
  have hsorted : (fetchRecommendationsForBooks o books).Pairwise recLE := by
    by_cases h : books.length = 0
    · unfold fetchRecommendationsForBooks
      rw [if_pos h]
      exact List.Pairwise.nil
    · rw [fetch_eq o books h]
      exact List.Pairwise.sublist (List.take_sublist MAX _)
        (List.sorted_insertionSort recLE (fallbackResult o books).1)
  have key : ∀ (p q : Nat) (hp : p < (fetchRecommendationsForBooks o books).length)
      (hq : q < (fetchRecommendationsForBooks o books).length), p < q →
      recLE ((fetchRecommendationsForBooks o books).get ⟨p, hp⟩)
        ((fetchRecommendationsForBooks o books).get ⟨q, hq⟩) := by
    intro p q hp hq hpq
    exact List.pairwise_iff_get.1 hsorted ⟨p, hp⟩ ⟨q, hq⟩ hpq
  constructor
  · intro hlt
    rcases Nat.lt_trichotomy i j with h | h | h
    · exact h
    · subst h
      exact absurd hlt (lt_irrefl _)
    · rcases key j i hj hi h with hr | ⟨hr, _⟩
      · omega
      · omega
  · intro heq hnot
    rcases Nat.lt_trichotomy i j with h | h | h
    · exact h
    · subst h
      exact absurd (charListLE_refl _) hnot
    · rcases key j i hj hi h with hr | ⟨_, hr⟩
      · omega
      · exact absurd hr hnot

/-- Witness instantiating `fetch_sorted_by_matching_then_title` at a
concrete two-result run. -/
theorem fetch_sorted_by_matching_then_title_witness :
    (((fetchRecommendationsForBooks wOracle [cb1]).get
        ⟨1, by decide⟩).matchingBookIds.length <
       ((fetchRecommendationsForBooks wOracle [cb1]).get
        ⟨0, by decide⟩).matchingBookIds.length →
      (0 : Nat) < 1) ∧
    (((fetchRecommendationsForBooks wOracle [cb1]).get
        ⟨0, by decide⟩).matchingBookIds.length =
       ((fetchRecommendationsForBooks wOracle [cb1]).get
        ⟨1, by decide⟩).matchingBookIds.length →
     ¬ localeLE ((fetchRecommendationsForBooks wOracle [cb1]).get
         ⟨1, by decide⟩).title
         ((fetchRecommendationsForBooks wOracle [cb1]).get
         ⟨0, by decide⟩).title →
      (0 : Nat) < 1) :=
  fetch_sorted_by_matching_then_title wOracle [cb1] 0 1 (by decide) (by decide)

/-! Fold preservation and the merge rule of the two result maps. -/

theorem foldl_pres {α β : Type} (f : β → α → β) (P : β → Prop)
    (h : ∀ b a, P b → P (f b a)) : ∀ (l : List α) (b : β), P b → P (l.foldl f b) := by
  intro l
  induction l with
  | nil => exact fun b hb => hb
  | cons a rest ih => exact fun b hb => ih _ (h b a hb)

theorem gfind?_none_id {m : List GEntry} {key : String}
    (h : m.find? (fun e => e.id == key) = none) : ∀ e ∈ m, e.id ≠ key := by
  intro e he
  have := List.find?_eq_none.1 h e he
  simpa using this

theorem find?_some_of_mem {m : List Rec} {key : String} {e : Rec}
    (he : e ∈ m) (hid : e.id = key) :
    ∃ x, m.find? (fun x => x.id == key) = some x := by
  cases hfind : m.find? (fun x => x.id == key) with
  | some x => exact ⟨x, rfl⟩
  | none => exact absurd hid (find?_none_id hfind e he)

theorem gfind?_some_of_mem {m : List GEntry} {key : String} {e : GEntry}
    (he : e ∈ m) (hid : e.id = key) :
    ∃ x, m.find? (fun x => x.id == key) = some x := by
  cases hfind : m.find? (fun x => x.id == key) with
  | some x => exact ⟨x, rfl⟩
  | none => exact absurd hid (gfind?_none_id hfind e he)

theorem tagDocs_merge_existing (rootIds : List String) (m : List Rec) (d : Doc)
    (e : Rec) (he : e ∈ m) (hid : e.id = d.key) (hk : ¬ d.key = "")
    (ht : ¬ d.title = "") (hr : d.key ∉ rootIds) (hlen : m.length < MAX) :
    tagDocs rootIds m [d] = updateExisting rootIds d.key m := by
  rw [tagDocs]
  rw [if_neg (by tauto), if_neg hr, if_neg (by omega)]
  rcases find?_some_of_mem he hid with ⟨x, hx⟩
  simp only [hx]
  rfl

theorem stepAInsert_merge_existing (m : List GEntry) (r : Rec) (e : GEntry)
    (he : e ∈ m) (hid : e.id = r.id) :
    stepAInsert m r = m.map (fun x =>
      if x.id = r.id then
        { x with matchingBookIds := addAll x.matchingBookIds r.matchingBookIds }
      else x) := by
  unfold stepAInsert
  rcases gfind?_some_of_mem he hid with ⟨x, hx⟩
  simp only [hx]

theorem stepBInsert_merge_existing (roots : List String) (m : List GEntry)
    (r : Rec) (e : GEntry) (he : e ∈ m) (hid : e.id = r.id) :
    stepBInsert roots m r = m.map (fun x =>
      if x.id = r.id then
        { x with matchingBookIds := addAll x.matchingBookIds roots,
                 isIntersection := true }
      else x) := by
  unfold stepBInsert
  rcases gfind?_some_of_mem he hid with ⟨x, hx⟩
  simp only [hx]

theorem stepAInsert_ids_nodup {m : List GEntry} (r : Rec)
    (h : (m.map (fun e => e.id)).Nodup) :
    ((stepAInsert m r).map (fun e => e.id)).Nodup := by
  unfold stepAInsert
  cases hfind : m.find? (fun e => e.id == r.id) with
  | none =>
    rw [List.map_append, List.nodup_append]
    refine ⟨h, by simp, ?_⟩
    intro x hx hx2
    simp only [List.map_cons, List.map_nil, List.mem_singleton] at hx2
    subst hx2
    rcases List.mem_map.1 hx with ⟨e, he, hide⟩
    exact gfind?_none_id hfind e he hide
  | some _ =>
    rw [List.map_map]
    have heq : ∀ x ∈ m, ((fun e => e.id) ∘ fun e =>
        if e.id = r.id then
          { e with matchingBookIds := addAll e.matchingBookIds r.matchingBookIds }
        else e) x = x.id := by
      intro x _
      by_cases hx : x.id = r.id <;> simp [hx]
    rw [List.map_congr_left heq]
    exact h

theorem stepBInsert_ids_nodup (roots : List String) {m : List GEntry} (r : Rec)
    (h : (m.map (fun e => e.id)).Nodup) :
    ((stepBInsert roots m r).map (fun e => e.id)).Nodup := by
  unfold stepBInsert
  cases hfind : m.find? (fun e => e.id == r.id) with
  | none =>
    rw [List.map_append, List.nodup_append]
    refine ⟨h, by simp, ?_⟩
    intro x hx hx2
    simp only [List.map_cons, List.map_nil, List.mem_singleton] at hx2
    subst hx2
    rcases List.mem_map.1 hx with ⟨e, he, hide⟩
    exact gfind?_none_id hfind e he hide
  | some _ =>
    rw [List.map_map]
    have heq : ∀ x ∈ m, ((fun e => e.id) ∘ fun e =>
        if e.id = r.id then
          { e with matchingBookIds := addAll e.matchingBookIds roots,
                   isIntersection := true }
        else e) x = x.id := by
      intro x _
      by_cases hx : x.id = r.id <;> simp [hx]
    rw [List.map_congr_left heq]
    exact h

theorem allRecsMapA_ids_nodup (o : Oracle) (books : List Book) :
    ((allRecsMapA o books).map (fun e => e.id)).Nodup := by
  unfold allRecsMapA
  have hbase : ((([] : List GEntry)).map (fun e => e.id)).Nodup := List.nodup_nil
  exact foldl_pres _ (fun m : List GEntry => (m.map (fun e => e.id)).Nodup)
    (fun m b hm => foldl_pres _ (fun m : List GEntry => (m.map (fun e => e.id)).Nodup)
      (fun m r h => stepAInsert_ids_nodup r h) _ m hm) books [] hbase

theorem allRecsMapB_ids_nodup (o : Oracle) (books : List Book) :
    ((allRecsMapB o books).map (fun e => e.id)).Nodup := by
  unfold allRecsMapB
  split
  · exact foldl_pres _ (fun m : List GEntry => (m.map (fun e => e.id)).Nodup)
      (fun m r h => stepBInsert_ids_nodup _ r h) _ _
      (allRecsMapA_ids_nodup o books)
  · exact allRecsMapA_ids_nodup o books

theorem fetch_ids_nodup (o : Oracle) (books : List Book) :
    ((fetchRecommendationsForBooks o books).map (fun r => r.id)).Nodup := by
  by_cases h : books.length = 0
  · unfold fetchRecommendationsForBooks
    rw [if_pos h]
    exact List.nodup_nil
  · rw [fetch_eq o books h]
    have hperm : List.Perm (sortRecs (fallbackResult o books).1)
        (fallbackResult o books).1 := List.perm_insertionSort recLE _
    have h1 : ((sortRecs (fallbackResult o books).1).map (fun r => r.id)).Nodup :=
      ((hperm.map _).nodup_iff).2 (fallbackResult_ids_nodup o books)
    exact List.Nodup.sublist (List.Sublist.map _ (List.take_sublist MAX _)) h1

/-- C5: the merged collections never hold two entries with one id, and
rediscovery of a present id merges by unioning the tagging root ids into
`matchingBookIds` (OR-ing `isIntersection` in the graph map) while leaving
`title`, `subjects` and `languages` of the existing entry untouched. -/
theorem merge_rule_no_duplicate_ids (o : Oracle) (books : List Book) :
    ((fetchRecommendationsForBooks o books).map (fun r => r.id)).Nodup ∧
    ((allRecsMapB o books).map (fun e => e.id)).Nodup ∧
    (∀ (rootIds : List String) (m : List Rec) (d : Doc) (e : Rec),
      e ∈ m → e.id = d.key → ¬ d.key = "" → ¬ d.title = "" → d.key ∉ rootIds →
      m.length < MAX →
      tagDocs rootIds m [d] = m.map (fun x =>
        if x.id = d.key then
          { x with matchingBookIds := addAll x.matchingBookIds rootIds }
        else x)) ∧
    (∀ (m : List GEntry) (r : Rec) (e : GEntry), e ∈ m → e.id = r.id →
      stepAInsert m r = m.map (fun x =>
        if x.id = r.id then
          { x with matchingBookIds := addAll x.matchingBookIds r.matchingBookIds }
        else x)) ∧
    (∀ (roots : List String) (m : List GEntry) (r : Rec) (e : GEntry),
      e ∈ m → e.id = r.id →
      stepBInsert roots m r = m.map (fun x =>
        if x.id = r.id then
          { x with matchingBookIds := addAll x.matchingBookIds roots,
                   isIntersection := true }
        else x)) := by
  refine ⟨fetch_ids_nodup o books, allRecsMapB_ids_nodup o books, ?_, ?_, ?_⟩
  · intro rootIds m d e he hid hk ht hr hlen
    exact tagDocs_merge_existing rootIds m d e he hid hk ht hr hlen
  · intro m r e he hid
    exact stepAInsert_merge_existing m r e he hid
  · intro roots m r e he hid
    exact stepBInsert_merge_existing roots m r e he hid

/-- Witness instantiating `merge_rule_no_duplicate_ids` with each nested
hypothesis discharged at concrete inputs. -/
theorem merge_rule_no_duplicate_ids_witness :
    ((fetchRecommendationsForBooks cOracle [cb1, cb2]).map (fun r => r.id)).Nodup ∧
    (tagDocs ["r9"] [cRec] [{ key := "r2", title := "T2", subject := [] }] =
      [{ cRec with matchingBookIds := addAll cRec.matchingBookIds ["r9"] }]) ∧
    (stepAInsert [cGEntry] cRec = [{ cGEntry with
        matchingBookIds := addAll cGEntry.matchingBookIds cRec.matchingBookIds }]) ∧
    (stepBInsert ["r1", "r2"] [cGEntry] cRec = [{ cGEntry with
        matchingBookIds := addAll cGEntry.matchingBookIds ["r1", "r2"],
        isIntersection := true }]) := by
  have h := merge_rule_no_duplicate_ids cOracle [cb1, cb2]
  refine ⟨h.1, ?_, ?_, ?_⟩
  · have := h.2.2.1 ["r9"] [cRec] { key := "r2", title := "T2", subject := [] }
      cRec (by decide) (by decide) (by decide) (by decide) (by decide) (by decide)
    rw [this]
    decide
  · have := h.2.2.2.1 [cGEntry] cRec cGEntry (by decide) (by decide)
    rw [this]
    decide
  · have := h.2.2.2.2 ["r1", "r2"] [cGEntry] cRec cGEntry (by decide) (by decide)
    rw [this]
    decide

/-! The `isIntersection` flag of the graph map. -/

theorem stepAInsert_flag_false {m : List GEntry} (r : Rec)
    (h : ∀ e ∈ m, e.isIntersection = false) :
    ∀ e ∈ stepAInsert m r, e.isIntersection = false := by
  unfold stepAInsert
  cases hfind : m.find? (fun e => e.id == r.id) with
  | none =>
    intro e he
    rcases List.mem_append.1 he with he | he
    · exact h e he
    · simp only [List.mem_singleton] at he
      subst he
      rfl
  | some _ =>
    intro e he
    rcases List.mem_map.1 he with ⟨e₀, he₀, heq⟩
    by_cases hx : e₀.id = r.id
    · rw [if_pos hx] at heq
      subst heq
      exact h e₀ he₀
    · rw [if_neg hx] at heq
      subst heq
      exact h e₀ he₀

theorem allRecsMapA_flag_false (o : Oracle) (books : List Book) :
    ∀ e ∈ allRecsMapA o books, e.isIntersection = false := by
  unfold allRecsMapA
  exact foldl_pres _ (fun m : List GEntry => ∀ e ∈ m, e.isIntersection = false)
    (fun m b hm => foldl_pres _
      (fun m : List GEntry => ∀ e ∈ m, e.isIntersection = false)
      (fun m r h => stepAInsert_flag_false r h) _ m hm) books []
    (fun e he => absurd he (List.not_mem_nil e))

theorem stepBInsert_flag (roots : List String) {m : List GEntry} (r : Rec)
    (P0 : String → Prop)
    (h : ∀ e ∈ m, (e.isIntersection = true ↔ P0 e.id)) :
    ∀ e ∈ stepBInsert roots m r,
      (e.isIntersection = true ↔ P0 e.id ∨ e.id = r.id) := by
  unfold stepBInsert
  cases hfind : m.find? (fun e => e.id == r.id) with
  | none =>
    intro e he
    rcases List.mem_append.1 he with he | he
    · have hne : e.id ≠ r.id := gfind?_none_id hfind e he
      rw [h e he]
      constructor
      · exact Or.inl
      · rintro (hp | hp)
        · exact hp
        · exact absurd hp hne
    · simp only [List.mem_singleton] at he
      subst he
      simp
  | some _ =>
    intro e he
    rcases List.mem_map.1 he with ⟨e₀, he₀, heq⟩
    by_cases hx : e₀.id = r.id
    · rw [if_pos hx] at heq
      subst heq
      simp [hx]
    · rw [if_neg hx] at heq
      subst heq
      rw [h e₀ he₀]
      constructor
      · exact Or.inl
      · rintro (hp | hp)
        · exact hp
        · exact absurd hp hx

theorem stepB_fold_flag (roots : List String) :
    ∀ (rs : List Rec) (m : List GEntry) (P0 : String → Prop),
      (∀ e ∈ m, (e.isIntersection = true ↔ P0 e.id)) →
      ∀ e ∈ rs.foldl (stepBInsert roots) m,
        (e.isIntersection = true ↔ P0 e.id ∨ e.id ∈ rs.map (fun r => r.id)) := by
  intro rs
  induction rs with
  | nil =>
    intro m P0 h e he
    rw [h e he]
    simp
  | cons r rest ih =>
    intro m P0 h e he
    have h2 := ih (stepBInsert roots m r) (fun id => P0 id ∨ id = r.id)
      (stepBInsert_flag roots r P0 h) e he
    rw [h2]
    simp only [List.map_cons, List.mem_cons]
    tauto

/-- C1 (amended): a merged graph entry carries `isIntersection = true`
exactly when it was returned by the all-roots aggregator call of Step B —
which only runs with at least two roots, and which internally runs all
three strategies (subject intersection, per-root subjects, title fallback),
not the subject-intersection pass alone; per-root discoveries of Step A
never set the flag, and once set it is never cleared. -/
theorem isIntersection_iff_all_roots_call (o : Oracle) (books : List Book)
    (e : GEntry) (he : e ∈ allRecsMapB o books) :
    e.isIntersection = true ↔ 1 < books.length ∧
      e.id ∈ ((fetchRecommendationsForBooks o books).take MAX_RECS_PER_ROOT).map
        (fun r => r.id) := by
  by_cases hlen : 1 < books.length
  · rw [allRecsMapB, if_pos hlen] at he
    have hbase : ∀ e ∈ allRecsMapA o books,
        (e.isIntersection = true ↔ False) := by
      intro e he
      simp [allRecsMapA_flag_false o books e he]
    have h2 := stepB_fold_flag (books.map (fun b => b.id)) _ _ (fun _ => False)
      hbase e he
    rw [h2]
    simp [hlen]
  · rw [allRecsMapB, if_neg hlen] at he
    simp [allRecsMapA_flag_false o books e he, hlen]

/-- C1 counterexample: with two roots sharing no subject, the
subject-intersection strategy of the all-roots call discovers nothing
(`afterIntersection`, the map after that pass, is empty — the
filtered-subject intersection is empty so no query is even issued), yet
the entry found by the per-root pass inside that call still ends with
`isIntersection = true`. This refutes the claim that the flag is true only
for recommendations discovered via the all-roots subject-intersection
strategy and that per-root discovery never yields a true flag. -/
theorem isIntersection_without_intersection_counterexample :
    afterIntersection cOracle [cb1, cb2] = [] ∧
    ¬ (∀ e ∈ allRecsMapB cOracle [cb1, cb2], e.isIntersection = true →
        e.id ∈ (afterIntersection cOracle [cb1, cb2]).map (fun r => r.id)) := by
  decide

/-- Witness instantiating `isIntersection_iff_all_roots_call` at a
concrete two-root run. -/
theorem isIntersection_iff_all_roots_call_witness :
    cGEntryB ∈ allRecsMapB cOracle [cb1, cb2] ∧
    (cGEntryB.isIntersection = true ↔ 1 < ([cb1, cb2] : List Book).length ∧
      cGEntryB.id ∈ ((fetchRecommendationsForBooks cOracle [cb1, cb2]).take
        MAX_RECS_PER_ROOT).map (fun r => r.id)) :=
  ⟨by decide, isIntersection_iff_all_roots_call cOracle [cb1, cb2] cGEntryB (by decide)⟩

/-! Node deduplication and link construction. -/

theorem addNode_inv (p : List String × List GNode) (n : GNode)
    (h : p.2.map (fun x => x.id) = p.1 ∧ p.1.Nodup) :
    (addNode p n).2.map (fun x => x.id) = (addNode p n).1 ∧
      (addNode p n).1.Nodup := by
  unfold addNode
  split
  · exact h
  · rename_i hn
    constructor
    · simp [h.1]
    · rw [List.nodup_append]
      refine ⟨h.2, by simp, ?_⟩
      intro a ha ha2
      simp only [List.mem_singleton] at ha2
      subst ha2
      exact hn ha

/-- C9: every node id appears exactly once in the output nodes, across both
the root pass and the recommendation pass (shared `seen` set). -/
theorem buildNodes_ids_nodup (o : Oracle) (books : List Book) :
    ((buildGraphData o books).nodes.map (fun n => n.id)).Nodup := by
  show ((buildNodes o books).map (fun n => n.id)).Nodup
  unfold buildNodes
  have h1 := foldl_pres (fun p b => addNode p (rootNode b))
    (fun p : List String × List GNode =>
      p.2.map (fun x => x.id) = p.1 ∧ p.1.Nodup)
    (fun p b hp => addNode_inv p (rootNode b) hp) books ([], [])
    ⟨rfl, List.nodup_nil⟩
  have h2 := foldl_pres (fun p e => addNode p (recNode e))
    (fun p : List String × List GNode =>
      p.2.map (fun x => x.id) = p.1 ∧ p.1.Nodup)
    (fun p e hp => addNode_inv p (recNode e) hp) (allRecsArray o books) _ h1
  rw [h2.1]
  exact h2.2

theorem stepAInsert_matching_nodup {m : List GEntry} (r : Rec)
    (h : ∀ e ∈ m, e.matchingBookIds.Nodup) :
    ∀ e ∈ stepAInsert m r, e.matchingBookIds.Nodup := by
  unfold stepAInsert
  cases hfind : m.find? (fun e => e.id == r.id) with
  | none =>
    intro e he
    rcases List.mem_append.1 he with he | he
    · exact h e he
    · simp only [List.mem_singleton] at he
      subst he
      exact dedupList_nodup
  | some _ =>
    intro e he
    rcases List.mem_map.1 he with ⟨e₀, he₀, heq⟩
    by_cases hx : e₀.id = r.id
    · rw [if_pos hx] at heq
      subst heq
      exact addAll_nodup (h e₀ he₀)
    · rw [if_neg hx] at heq
      subst heq
      exact h e₀ he₀

theorem stepBInsert_matching_nodup (roots : List String) {m : List GEntry}
    (r : Rec) (h : ∀ e ∈ m, e.matchingBookIds.Nodup) :
    ∀ e ∈ stepBInsert roots m r, e.matchingBookIds.Nodup := by
  unfold stepBInsert
  cases hfind : m.find? (fun e => e.id == r.id) with
  | none =>
    intro e he
    rcases List.mem_append.1 he with he | he
    · exact h e he
    · simp only [List.mem_singleton] at he
      subst he
      exact dedupList_nodup
  | some _ =>
    intro e he
    rcases List.mem_map.1 he with ⟨e₀, he₀, heq⟩
    by_cases hx : e₀.id = r.id
    · rw [if_pos hx] at heq
      subst heq
      exact addAll_nodup (h e₀ he₀)
    · rw [if_neg hx] at heq
      subst heq
      exact h e₀ he₀

theorem allRecsMapB_matching_nodup (o : Oracle) (books : List Book) :
    ∀ e ∈ allRecsMapB o books, e.matchingBookIds.Nodup := by
  have hA : ∀ e ∈ allRecsMapA o books, e.matchingBookIds.Nodup := by
    unfold allRecsMapA
    exact foldl_pres _
      (fun m : List GEntry => ∀ e ∈ m, e.matchingBookIds.Nodup)
      (fun m b hm => foldl_pres _
        (fun m : List GEntry => ∀ e ∈ m, e.matchingBookIds.Nodup)
        (fun m r h => stepAInsert_matching_nodup r h) _ m hm) books []
      (fun e he => absurd he (List.not_mem_nil e))
  unfold allRecsMapB
  split
  · exact foldl_pres _
      (fun m : List GEntry => ∀ e ∈ m, e.matchingBookIds.Nodup)
      (fun m r h => stepBInsert_matching_nodup _ r h) _ _ hA
  · exact hA

theorem allRecsArray_ids_nodup (o : Oracle) (books : List Book) :
    ((allRecsArray o books).map (fun e => e.id)).Nodup := by
  unfold allRecsArray
  exact ((List.perm_insertionSort gentryLE _).map _).nodup_iff.2
    (allRecsMapB_ids_nodup o books)

theorem allRecsArray_matching_nodup (o : Oracle) (books : List Book) :
    ∀ e ∈ allRecsArray o books, e.matchingBookIds.Nodup := by
  intro e he
  exact allRecsMapB_matching_nodup o books e
    ((List.mem_insertionSort gentryLE).1 he)

theorem links_pair_snd : ∀ (arr : List GEntry) (p : String × String),
    p ∈ (arr.flatMap (fun e => e.matchingBookIds.map (fun rootId =>
        GLink.mk rootId e.id (if e.isIntersection then 2 else 1)))).map
      (fun l => (l.source, l.target)) → p.2 ∈ arr.map (fun e => e.id) := by
  intro arr p hp
  rcases List.mem_map.1 hp with ⟨l, hl, hlp⟩
  rcases List.mem_flatMap.1 hl with ⟨e, he, hle⟩
  rcases List.mem_map.1 hle with ⟨rid, _, hr⟩
  subst hlp
  subst hr
  exact List.mem_map.2 ⟨e, he, rfl⟩

theorem links_pairs_nodup : ∀ (arr : List GEntry),
    ((arr.map (fun e => e.id)).Nodup) →
    (∀ e ∈ arr, e.matchingBookIds.Nodup) →
    ((arr.flatMap (fun e => e.matchingBookIds.map (fun rootId =>
        GLink.mk rootId e.id (if e.isIntersection then 2 else 1)))).map
      (fun l => (l.source, l.target))).Nodup := by
  intro arr
  induction arr with
  | nil =>
    intro _ _
    simp
  | cons e rest ih =>
    intro hids hmat
    rw [List.flatMap_cons, List.map_append, List.nodup_append]
    rw [List.map_cons, List.nodup_cons] at hids
    refine ⟨?_, ih hids.2 (fun x hx => hmat x (List.mem_cons_of_mem _ hx)), ?_⟩
    · rw [List.map_map]
      have heq : ((fun l : GLink => (l.source, l.target)) ∘ fun rootId =>
          GLink.mk rootId e.id (if e.isIntersection then 2 else 1)) =
          fun rootId => (rootId, e.id) := rfl
      rw [heq]
      refine List.Nodup.map ?_ (hmat e (List.mem_cons_self e rest))
      intro a b hab
      exact congrArg Prod.fst hab
    · intro p hp hp2
      have hsnd := links_pair_snd rest p hp2
      rcases List.mem_map.1 hp with ⟨l, hl, hlp⟩
      rcases List.mem_map.1 hl with ⟨rid, _, hr⟩
      subst hlp
      subst hr
      exact hids.1 hsnd

/-- C6: for every merged entry and every root id it matches, exactly one
link (source, target) pair is emitted, with value 2 for intersection
entries and 1 otherwise. -/
theorem buildLinks_one_per_pair (o : Oracle) (books : List Book) :
    (((buildGraphData o books).links).map (fun l => (l.source, l.target))).Nodup ∧
    ∀ e ∈ allRecsArray o books, ∀ rid ∈ e.matchingBookIds,
      GLink.mk rid e.id (if e.isIntersection then 2 else 1) ∈
        (buildGraphData o books).links := by
  constructor
  · show ((buildLinks o books).map (fun l => (l.source, l.target))).Nodup
    unfold buildLinks
    exact links_pairs_nodup _ (allRecsArray_ids_nodup o books)
      (allRecsArray_matching_nodup o books)
  · intro e he rid hrid
    show _ ∈ buildLinks o books
    unfold buildLinks
    exact List.mem_flatMap.2 ⟨e, he, List.mem_map.2 ⟨rid, hrid, rfl⟩⟩

/-- Witness instantiating `buildLinks_one_per_pair` at a concrete run. -/
theorem buildLinks_one_per_pair_witness :
    cGEntryB ∈ allRecsArray cOracle [cb1, cb2] ∧
    "r1" ∈ cGEntryB.matchingBookIds ∧
    GLink.mk "r1" cGEntryB.id (if cGEntryB.isIntersection then 2 else 1) ∈
      (buildGraphData cOracle [cb1, cb2]).links :=
  ⟨by decide, by decide,
    (buildLinks_one_per_pair cOracle [cb1, cb2]).2 cGEntryB (by decide) "r1"
      (by decide)⟩

/-! Failure swallowing: a failing request behaves like an empty response. -/

theorem subjectSearchAndTag_patch (o : Oracle) (rootIds : List String)
    (subj : String) (m : List Rec) :
    subjectSearchAndTag (patchOracle o) rootIds subj m =
      subjectSearchAndTag o rootIds subj m := by
  unfold subjectSearchAndTag patchOracle
  dsimp only
  cases h : o (Query.subject (slugify subj)) with
  | none => simp [h, tagDocs]
  | some ds => simp [h]

theorem runSubjList_patch (o : Oracle) (rootIds : List String) :
    ∀ (subjs : List String) (m : List Rec),
      runSubjList (patchOracle o) rootIds subjs m = runSubjList o rootIds subjs m := by
  intro subjs
  induction subjs with
  | nil => exact fun m => rfl
  | cons s rest ih =>
    intro m
    rw [runSubjList, runSubjList]
    by_cases h : MAX ≤ m.length
    · rw [if_pos h, if_pos h]
    · rw [if_neg h, if_neg h, subjectSearchAndTag_patch, ih]

theorem runPerRoot_patch (o : Oracle) :
    ∀ (pairs : List (String × List String)) (m : List Rec),
      runPerRoot (patchOracle o) pairs m = runPerRoot o pairs m := by
  intro pairs
  induction pairs with
  | nil => exact fun m => rfl
  | cons p rest ih =>
    intro m
    rw [runPerRoot, runPerRoot]
    by_cases h : MAX ≤ m.length
    · rw [if_pos h, if_pos h]
    · rw [if_neg h, if_neg h, runSubjList_patch, ih]

theorem fallbackStep_patch (o : Oracle) (b : Book) (m : List Rec) :
    fallbackStep (patchOracle o) b m = fallbackStep o b m := by
  unfold fallbackStep patchOracle
  by_cases h : (m.any (fun e => decide (b.id ∈ e.matchingBookIds))) = true
  · rw [if_pos h, if_pos h]
  · rw [if_neg h, if_neg h]
    cases hq : o (Query.title b.title) with
    | none => simp [hq, tagDocs]
    | some ds => simp [hq]

theorem runFallback_patch (o : Oracle) :
    ∀ (bs : List Book) (m : List Rec),
      runFallback (patchOracle o) bs m = runFallback o bs m := by
  intro bs
  induction bs with
  | nil => exact fun m => rfl
  | cons b rest ih =>
    intro m
    rw [runFallback, runFallback]
    by_cases h : MAX ≤ m.length
    · rw [if_pos h, if_pos h]
    · rw [if_neg h, if_neg h]
      dsimp only
      rw [fallbackStep_patch, ih]

theorem fallbackResult_patch (o : Oracle) (books : List Book) :
    fallbackResult (patchOracle o) books = fallbackResult o books := by
  unfold fallbackResult afterPerRoot afterIntersection
  dsimp only
  by_cases h : 0 < (intersectionOf (books.map filteredSubjectsOf)).length
  · rw [if_pos h, if_pos h, runSubjList_patch, runPerRoot_patch, runFallback_patch]
  · rw [if_neg h, if_neg h, runPerRoot_patch, runFallback_patch]

theorem fetch_patch (o : Oracle) (books : List Book) :
    fetchRecommendationsForBooks (patchOracle o) books =
      fetchRecommendationsForBooks o books := by
  unfold fetchRecommendationsForBooks
  by_cases h : books.length = 0
  · rw [if_pos h, if_pos h]
  · rw [if_neg h, if_neg h]
    dsimp only
    rw [fallbackResult_patch]

/-- C8: any failing subject/title query behaves exactly like one returning
no documents (the aggregator never propagates the failure), and the
aggregator returns the empty sequence exactly when the working map after
every strategy is still empty. -/
theorem failures_swallowed_empty_iff (o : Oracle) (books : List Book) :
    fetchRecommendationsForBooks o books =
      fetchRecommendationsForBooks (patchOracle o) books ∧
    (fetchRecommendationsForBooks o books = [] ↔
      (fallbackResult o books).1 = []) := by
  constructor
  · exact (fetch_patch o books).symm
  · by_cases h : books.length = 0
    · have hb : books = [] := List.eq_nil_of_length_eq_zero h
      subst hb
      constructor
      · intro _
        rfl
      · intro _
        rfl
    · rw [fetch_eq o books h]
      constructor
      · intro htake
        have hsort : sortRecs (fallbackResult o books).1 = [] := by
          rcases List.take_eq_nil_iff.1 htake with h10 | hs
          · exact absurd h10 (by decide)
          · exact hs
        have hp : List.Perm (sortRecs (fallbackResult o books).1)
            (fallbackResult o books).1 := List.perm_insertionSort recLE _
        rw [hsort] at hp
        exact (hp.symm).eq_nil
      · intro hm
        rw [hm]
        rfl

/-- C10: a non-array argument or an empty root array makes the aggregator
return the empty list without failing. -/
theorem empty_or_nonarray_returns_nil (o : Oracle) (v : JsInput)
    (h : v = JsInput.notArray ∨ v = JsInput.arr []) :
    fetchRecommendationsForBooksJS o v = [] := by
  rcases h with rfl | rfl
  · rfl
  · rfl

/-- Witness instantiating `empty_or_nonarray_returns_nil`. -/
theorem empty_or_nonarray_returns_nil_witness :
    (JsInput.notArray = JsInput.notArray ∨ JsInput.notArray = JsInput.arr []) ∧
    fetchRecommendationsForBooksJS cOracle JsInput.notArray = [] :=
  ⟨Or.inl rfl, empty_or_nonarray_returns_nil cOracle JsInput.notArray (Or.inl rfl)⟩

/-! The title-fallback pass: which roots it fires for, and what it tags. -/

theorem tagged_any_iff (m : List Rec) (x : String) :
    (m.any (fun e => decide (x ∈ e.matchingBookIds)) = true) ↔ tagged m x := by
  rw [List.any_eq_true]
  unfold tagged
  constructor
  · rintro ⟨e, he, hx⟩
    exact ⟨e, he, of_decide_eq_true hx⟩
  · rintro ⟨e, he, hx⟩
    exact ⟨e, he, decide_eq_true hx⟩

theorem tagged_tagDocs_mono (rootIds : List String) (x : String) :
    ∀ (ds : List Doc) (m : List Rec), tagged m x → tagged (tagDocs rootIds m ds) x := by
  refine tagDocs_pres rootIds (fun m => tagged m x) ?_ ?_
  · rintro m d _ _ _ _ ⟨e, he, hx⟩
    refine ⟨(fun e => if e.id = d.key then
      { e with matchingBookIds := addAll e.matchingBookIds rootIds } else e) e,
      List.mem_map_of_mem _ he, ?_⟩
    dsimp only
    by_cases h : e.id = d.key
    · rw [if_pos h]
      exact addAll_subset hx
    · rw [if_neg h]
      exact hx
  · rintro m d _ _ _ _ _ ⟨e, he, hx⟩
    exact ⟨e, List.mem_append_left _ he, hx⟩

theorem tagged_updateExisting_rev {rootIds : List String} {key x : String}
    {m : List Rec} (h : tagged (updateExisting rootIds key m) x) :
    tagged m x ∨ x ∈ rootIds := by
  rcases h with ⟨e, he, hx⟩
  rcases mem_updateExisting he with ⟨e₀, he₀, h₁ | ⟨_, h₁⟩⟩
  · exact Or.inl ⟨e₀, he₀, h₁ ▸ hx⟩
  · rw [h₁] at hx
    rcases mem_addAll.1 hx with hx2 | hx2
    · exact Or.inl ⟨e₀, he₀, hx2⟩
    · exact Or.inr hx2

theorem tagged_tagDocs_rev (rootIds : List String) (x : String) :
    ∀ (ds : List Doc) (m : List Rec),
      tagged (tagDocs rootIds m ds) x → tagged m x ∨ x ∈ rootIds := by
  intro ds
  induction ds with
  | nil => exact fun m h => Or.inl h
  | cons d ds ih =>
    intro m h
    rw [tagDocs] at h
    split at h
    · exact ih m h
    · split at h
      · exact ih m h
      · split at h
        · exact Or.inl h
        · split at h
          · rcases ih _ h with h2 | h2
            · exact tagged_updateExisting_rev h2
            · exact Or.inr h2
          · rcases ih _ h with h2 | h2
            · rcases h2 with ⟨e, he, hx⟩
              rcases List.mem_append.1 he with he | he
              · exact Or.inl ⟨e, he, hx⟩
              · simp only [List.mem_singleton] at he
                subst he
                rw [newEntry_matching] at hx
                rcases mem_addAll.1 hx with hx | hx
                · exact absurd hx (List.not_mem_nil x)
                · exact Or.inr hx
            · exact Or.inr h2

theorem tagged_fallbackStep_iff (o : Oracle) (b : Book) (m : List Rec)
    (x : String) (hx : x ≠ b.id) :
    tagged (fallbackStep o b m).1 x ↔ tagged m x := by
  unfold fallbackStep
  split
  · exact Iff.rfl
  · split
    · exact Iff.rfl
    · constructor
      · intro h
        rcases tagged_tagDocs_rev [b.id] x _ m h with h | h
        · exact h
        · simp only [List.mem_singleton] at h
          exact absurd h hx
      · exact tagged_tagDocs_mono [b.id] x _ m

theorem runFallback_issued_subset (o : Oracle) :
    ∀ (bs : List Book) (m : List Rec),
      (runFallback o bs m).2 ⊆ bs.map (fun b => b.id) := by
  intro bs
  induction bs with
  | nil =>
    intro m y hy
    exact absurd hy (List.not_mem_nil y)
  | cons b rest ih =>
    intro m y hy
    rw [runFallback] at hy
    split at hy
    · exact absurd hy (List.not_mem_nil y)
    · dsimp only at hy
      rcases List.mem_append.1 hy with hy | hy
      · split at hy
        · simp only [List.mem_singleton] at hy
          subst hy
          simp
        · exact absurd hy (List.not_mem_nil y)
      · exact List.mem_cons_of_mem _ (ih _ hy)

theorem entry_persist_tagDocs (rootIds : List String) (k : String)
    (S : List String) :
    ∀ (ds : List Doc) (m : List Rec),
      (∃ e ∈ m, e.id = k ∧ ∀ x ∈ S, x ∈ e.matchingBookIds) →
      ∃ e ∈ tagDocs rootIds m ds, e.id = k ∧ ∀ x ∈ S, x ∈ e.matchingBookIds := by
  refine tagDocs_pres rootIds
    (fun m => ∃ e ∈ m, e.id = k ∧ ∀ x ∈ S, x ∈ e.matchingBookIds) ?_ ?_
  · rintro m d _ _ _ _ ⟨e, he, hid, hS⟩
    refine ⟨(fun e => if e.id = d.key then
      { e with matchingBookIds := addAll e.matchingBookIds rootIds } else e) e,
      List.mem_map_of_mem _ he, ?_⟩
    dsimp only
    by_cases h : e.id = d.key
    · rw [if_pos h]
      exact ⟨hid, fun x hx => addAll_subset (hS x hx)⟩
    · rw [if_neg h]
      exact ⟨hid, hS⟩
  · rintro m d _ _ _ _ _ ⟨e, he, hid, hS⟩
    exact ⟨e, List.mem_append_left _ he, hid, hS⟩

theorem entry_persist_runFallback (o : Oracle) (k : String) (S : List String) :
    ∀ (bs : List Book) (m : List Rec),
      (∃ e ∈ m, e.id = k ∧ ∀ x ∈ S, x ∈ e.matchingBookIds) →
      ∃ e ∈ (runFallback o bs m).1, e.id = k ∧ ∀ x ∈ S, x ∈ e.matchingBookIds := by
  intro bs m h
  exact runFallback_pres o
    (fun m => ∃ e ∈ m, e.id = k ∧ ∀ x ∈ S, x ∈ e.matchingBookIds) bs
    (fun b _ ds m hp => entry_persist_tagDocs [b.id] k S ds m hp) m h

theorem updateExisting_has_entry {m : List Rec} {key : String} {e₁ : Rec}
    (he₁ : e₁ ∈ m) (hid : e₁.id = key) (rootIds : List String) :
    ∃ e ∈ updateExisting rootIds key m, e.id = key ∧
      ∀ x ∈ rootIds, x ∈ e.matchingBookIds := by
  unfold updateExisting
  refine ⟨_, List.mem_map_of_mem _ he₁, ?_⟩
  dsimp only
  rw [if_pos hid]
  exact ⟨hid, fun x hx => subset_addAll hx⟩

theorem tagDocs_processes (rootIds : List String) :
    ∀ (ds : List Doc) (m : List Rec), (tagDocs rootIds m ds).length < MAX →
      ∀ d ∈ ds, ¬ d.key = "" → ¬ d.title = "" → d.key ∉ rootIds →
        ∃ e ∈ tagDocs rootIds m ds, e.id = d.key ∧
          ∀ x ∈ rootIds, x ∈ e.matchingBookIds := by
  intro ds
  induction ds with
  | nil =>
    intro m _ d hd
    exact absurd hd (List.not_mem_nil d)
  | cons d₀ ds ih =>
    intro m hlen d hd hk ht hr
    rw [tagDocs] at hlen ⊢
    by_cases h₁ : d₀.key = "" ∨ d₀.title = ""
    · rw [if_pos h₁] at hlen ⊢
      rcases List.mem_cons.1 hd with heq | hd2
      · subst heq
        rcases h₁ with h₁ | h₁
        · exact absurd h₁ hk
        · exact absurd h₁ ht
      · exact ih m hlen d hd2 hk ht hr
    · rw [if_neg h₁] at hlen ⊢
      by_cases h₂ : d₀.key ∈ rootIds
      · rw [if_pos h₂] at hlen ⊢
        rcases List.mem_cons.1 hd with heq | hd2
        · subst heq
          exact absurd h₂ hr
        · exact ih m hlen d hd2 hk ht hr
      · rw [if_neg h₂] at hlen ⊢
        by_cases h₃ : MAX ≤ m.length
        · rw [if_pos h₃] at hlen
          omega
        · rw [if_neg h₃] at hlen ⊢
          cases hfind : m.find? (fun e => e.id == d₀.key) with
          | some e₁ =>
            simp only [hfind] at hlen ⊢
            rcases List.mem_cons.1 hd with heq | hd2
            · subst heq
              have he₁ : e₁ ∈ m := List.mem_of_find?_eq_some hfind
              have hid : e₁.id = d.key := by
                have := List.find?_some hfind
                simpa using this
              exact entry_persist_tagDocs rootIds d.key rootIds ds _
                (updateExisting_has_entry he₁ hid rootIds)
            · exact ih _ hlen d hd2 hk ht hr
          | none =>
            simp only [hfind] at hlen ⊢
            rcases List.mem_cons.1 hd with heq | hd2
            · subst heq
              refine entry_persist_tagDocs rootIds d.key rootIds ds _ ?_
              refine ⟨newEntry rootIds d, List.mem_append_right _ (by simp), ?_⟩
              refine ⟨newEntry_id rootIds d, ?_⟩
              intro x hx
              rw [newEntry_matching]
              exact subset_addAll hx
            · exact ih _ hlen d hd2 hk ht hr

theorem runFallback_spec (o : Oracle) :
    ∀ (bs : List Book) (m : List Rec),
      (bs.map (fun b => b.id)).Nodup →
      (runFallback o bs m).1.length < MAX →
      ∀ b ∈ bs,
        ((b.id ∈ (runFallback o bs m).2 ↔ ¬ tagged m b.id) ∧
         (b.id ∈ (runFallback o bs m).2 →
           ∀ ds, o (Query.title b.title) = some ds →
             ∀ d ∈ ds, ¬ d.key = "" → ¬ d.title = "" → ¬ d.key = b.id →
               ∃ e ∈ (runFallback o bs m).1, e.id = d.key ∧
                 b.id ∈ e.matchingBookIds)) := by
  intro bs
  induction bs with
  | nil =>
    intro m _ _ b hb
    exact absurd hb (List.not_mem_nil b)
  | cons b₀ rest ih =>
    intro m hnodup hcap b hb
    rw [List.map_cons, List.nodup_cons] at hnodup
    rw [runFallback] at hcap ⊢
    by_cases hbreak : MAX ≤ m.length
    · rw [if_pos hbreak] at hcap
      dsimp only at hcap
      omega
    · rw [if_neg hbreak] at hcap ⊢
      dsimp only at hcap ⊢
      rcases List.mem_cons.1 hb with heq | hbr
      · subst heq
        by_cases htag : tagged m b.id
        · have hstep : fallbackStep o b m = (m, false) := by
            unfold fallbackStep
            rw [if_pos ((tagged_any_iff m b.id).2 htag)]
          rw [hstep] at hcap ⊢
          dsimp only at hcap ⊢
          have hnoiss : b.id ∉ (runFallback o rest m).2 := by
            intro hmem
            exact hnodup.1 (runFallback_issued_subset o rest m hmem)
          constructor
          · constructor
            · intro hmem
              exact absurd hmem hnoiss
            · intro hn
              exact absurd htag hn
          · intro hmem
            exact absurd hmem hnoiss
        · have hany : ¬ (m.any (fun e => decide (b.id ∈ e.matchingBookIds))) = true := by
            intro hc
            exact htag ((tagged_any_iff m b.id).1 hc)
          cases hq : o (Query.title b.title) with
          | none =>
            have hstep : fallbackStep o b m = (m, true) := by
              unfold fallbackStep
              rw [if_neg hany, hq]
            rw [hstep] at hcap ⊢
            dsimp only at hcap ⊢
            constructor
            · constructor
              · intro _
                exact htag
              · intro _
                exact List.mem_append_left _ (by simp)
            · intro _ ds hds
              cases hds
          | some docs =>
            have hstep : fallbackStep o b m = (tagDocs [b.id] m docs, true) := by
              unfold fallbackStep
              rw [if_neg hany, hq]
            rw [hstep] at hcap ⊢
            dsimp only at hcap ⊢
            constructor
            · constructor
              · intro _
                exact htag
              · intro _
                exact List.mem_append_left _ (by simp)
            · intro _ ds hds d hd hk ht hkr
              have hds2 : docs = ds := Option.some.inj hds
              subst hds2
              have hlen2 : (tagDocs [b.id] m docs).length < MAX :=
                lt_of_le_of_lt (length_le_runFallback o rest _) hcap
              have hentry := tagDocs_processes [b.id] docs m hlen2 d hd hk ht
                (by simpa using hkr)
              rcases hentry with ⟨e, he, hid, hS⟩
              rcases entry_persist_runFallback o d.key [b.id] rest _
                  ⟨e, he, hid, hS⟩ with ⟨e₂, he₂, hid₂, hS₂⟩
              exact ⟨e₂, he₂, hid₂, hS₂ b.id (by simp)⟩
      · have hbid_ne : b.id ≠ b₀.id := by
          intro hc
          exact hnodup.1 (hc ▸ List.mem_map_of_mem _ hbr)
        have hih := ih (fallbackStep o b₀ m).1 hnodup.2 hcap b hbr
        have hiff : b.id ∈ ((if (fallbackStep o b₀ m).2 then [b₀.id] else []) ++
            (runFallback o rest (fallbackStep o b₀ m).1).2) ↔
            b.id ∈ (runFallback o rest (fallbackStep o b₀ m).1).2 := by
          constructor
          · intro hmem
            rcases List.mem_append.1 hmem with hmem | hmem
            · exfalso
              split at hmem
              · simp only [List.mem_singleton] at hmem
                exact hbid_ne hmem
              · exact absurd hmem (List.not_mem_nil _)
            · exact hmem
          · exact fun hmem => List.mem_append_right _ hmem
        constructor
        · exact hiff.trans (hih.1.trans
            (not_congr (tagged_fallbackStep_iff o b₀ m b.id hbid_ne)))
        · intro hmem ds hds d hd hk ht hkr
          exact hih.2 (hiff.1 hmem) ds hds d hd hk ht hkr

/-- C7: the title fallback runs after the intersection and per-root
subject strategies (it starts from their final map); with duplicate-free
root ids and the cap never reached, a title search is issued exactly for
the roots untagged in that map (tagging by any pass, the intersection one
included, counts), and every qualifying result of an issued search ends up
tagged with that root id in the final map. -/
theorem title_fallback_exactly_untagged_roots (o : Oracle) (books : List Book)
    (hnodup : (books.map (fun b => b.id)).Nodup)
    (hcap : (fallbackResult o books).1.length < MAX) :
    ∀ b ∈ books,
      ((b.id ∈ (fallbackResult o books).2 ↔
          ¬ tagged (afterPerRoot o books) b.id) ∧
       (b.id ∈ (fallbackResult o books).2 →
         ∀ ds, o (Query.title b.title) = some ds →
           ∀ d ∈ ds, ¬ d.key = "" → ¬ d.title = "" → ¬ d.key = b.id →
             ∃ e ∈ (fallbackResult o books).1, e.id = d.key ∧
               b.id ∈ e.matchingBookIds)) := by
  intro b hb
  unfold fallbackResult at hcap ⊢
  exact runFallback_spec o books (afterPerRoot o books) hnodup hcap b hb

/-- Witness instantiating `title_fallback_exactly_untagged_roots` at a
concrete run in which the second root is untagged after the subject
strategies. -/
theorem title_fallback_exactly_untagged_roots_witness :
    ((([cb1, cb2] : List Book).map (fun b => b.id)).Nodup) ∧
    ((fallbackResult cOracle [cb1, cb2]).1.length < MAX) ∧
    cb2 ∈ ([cb1, cb2] : List Book) ∧
    ((cb2.id ∈ (fallbackResult cOracle [cb1, cb2]).2 ↔
        ¬ tagged (afterPerRoot cOracle [cb1, cb2]) cb2.id) ∧
     (cb2.id ∈ (fallbackResult cOracle [cb1, cb2]).2 →
       ∀ ds, cOracle (Query.title cb2.title) = some ds →
         ∀ d ∈ ds, ¬ d.key = "" → ¬ d.title = "" → ¬ d.key = cb2.id →
           ∃ e ∈ (fallbackResult cOracle [cb1, cb2]).1, e.id = d.key ∧
             cb2.id ∈ e.matchingBookIds)) :=
  ⟨by decide, by decide, by decide,
    title_fallback_exactly_untagged_roots cOracle [cb1, cb2] (by decide)
      (by decide) cb2 (by decide)⟩

end BookRecommender
